import Mathlib

/-!
Shallow embedding of `src/first.rs`: a singly-linked list with stack
semantics (`List` with `push`/`pop`/`peek`/`peek_mut`), an iterative `Drop`
implementation, and three iterators (`ListIntoIter`, `ListIter`,
`ListIterMut`).  Rust's `Box<Node<T>>` is exclusive ownership of a heap
node; the chain reachable from `head` is acyclic, so the whole structure is
faithfully represented by an inductive `Node` whose `next` field is an
`Option Node`.  `&mut self` methods are embedded in state-passing style
(they return the updated stack together with their result); `&self`
methods return only their result, since without interior mutability they
cannot change the stack.
-/

/-- Lean's built-in list type, used as the mathematical abstraction of a
chain of nodes (the source's `List` name is taken by the stack itself). -/
abbrev ElemSeq (T : Type u) := List T

namespace first

/-- `struct Node<T> { elem: T, next: Link<T> }` where
`type Link<T> = Option<Box<Node<T>>>`.  `Box` is ownership, erased here. -/
inductive Node (T : Type u) : Type u where
  | mk (elem : T) (next : Option (Node T)) : Node T

/-- `type Link<T> = Option<Box<Node<T>>>`. -/
abbrev Link (T : Type u) := Option (Node T)

/-- `node.elem` field access. -/
def Node.elem : Node T → T
  | .mk e _ => e

/-- `node.next` field access. -/
def Node.next : Node T → Link T
  | .mk _ n => n

/-- `pub struct List<T> { head: Link<T> }`. -/
structure List (T : Type u) : Type u where
  head : Link T

/-- `List::new`: `List { head: None }`. -/
def List.new : List T := { head := none }

/-- `List::push`:
`self.head = Some(Box::new(Node { elem, next: self.head.take() }))`.
The `&mut self` receiver becomes an explicit stack result. -/
def List.push (self : List T) (elem : T) : List T :=
  { head := some (Node.mk elem self.head) }

/-- `List::pop`:
`self.head.take().map(|node| { self.head = node.next; node.elem })`.
Returns the popped value together with the updated stack. -/
def List.pop (self : List T) : Option T × List T :=
  match self.head with
  | none => (none, { head := none })
  | some node => (some node.elem, { head := node.next })

/-- `List::peek`: `self.head.as_ref().map(|node| &node.elem)`.  A `&self`
method: it cannot mutate the stack, so only the result is returned. -/
def List.peek (self : List T) : Option T :=
  self.head.map Node.elem

/-- `List::peek_mut`: `self.head.as_mut().map(|node| &mut node.elem)`.
Whether a mutable reference to the head element is produced ("no value"
on an empty stack). -/
def List.peek_mut (self : List T) : Option T :=
  self.head.map Node.elem

/-- A write `*p = v` through the reference returned by `peek_mut`: if the
head node exists its element is overwritten with `v`, otherwise there is
no reference to write through and the stack is unchanged. -/
def List.peek_mut_write (self : List T) (v : T) : List T :=
  match self.head with
  | none => { head := none }
  | some node => { head := some (Node.mk v node.next) }

/-- The chain of elements reachable from a link, head to tail: the
mathematical abstraction of the data structure. -/
def Link.elems : Link T → ElemSeq T
  | none => []
  | some (.mk e next) => e :: Link.elems next

/-- The stack's elements, most recently pushed first. -/
def List.elems (self : List T) : ElemSeq T :=
  Link.elems self.head

/-- One iteration of the loop in `impl Drop for List`:
`while let Some(mut node) = next { next = node.next.take(); }`.
The loop state is the local `next`; each iteration detaches the current
node's successor slot (`node.next.take()`) into the local before the node
is released, and the loop exits when the local is `None`. -/
def dropStep : Link T → Link T
  | none => none
  | some node => node.next

/-- The number of iterations the `Drop` loop performs before exiting,
counted directly off the loop: one per node reached from the entry link. -/
def dropIters : Link T → Nat
  | none => 0
  | some (.mk _ next) => dropIters next + 1

/-- `pub struct ListIntoIter<T>(List<T>)`; `inner` is the `.0` field. -/
structure ListIntoIter (T : Type u) : Type u where
  inner : List T

/-- `impl IntoIterator for List`: `ListIntoIter(self)`. -/
def List.into_iter (self : List T) : ListIntoIter T :=
  { inner := self }

/-- `impl Iterator for ListIntoIter`: `self.0.pop()`, in state-passing
style. -/
def ListIntoIter.next (self : ListIntoIter T) : Option T × ListIntoIter T :=
  let r := self.inner.pop
  (r.1, { inner := r.2 })

/-- `pub struct ListIter<'a, T> { next: Option<&'a Node<T>> }`; the
shared reference is embedded as the node it denotes (`nextRef`, since the
field and the `Iterator` method are both called `next` in the source). -/
structure ListIter (T : Type u) : Type u where
  nextRef : Option (Node T)

/-- `impl IntoIterator for &'a List`:
`ListIter { next: self.head.as_ref().map(|h| h.as_ref()) }`.  A shared
borrow of the stack: the stack itself is not consumed or changed. -/
def List.iter (self : List T) : ListIter T :=
  { nextRef := self.head }

/-- `impl Iterator for ListIter`:
`self.next.map(|node| { self.next = node.next.as_ref().map(...); &node.elem })`. -/
def ListIter.next (self : ListIter T) : Option T × ListIter T :=
  match self.nextRef with
  | none => (none, { nextRef := none })
  | some node => (some node.elem, { nextRef := node.next })

/-- `pub struct ListIterMut<'a, T> { next: Option<&'a mut Node<T>> }`. -/
structure ListIterMut (T : Type u) : Type u where
  nextRef : Option (Node T)

/-- `impl IntoIterator for &'a mut List`:
`ListIterMut { next: self.head.as_mut().map(|h| h.as_mut()) }`. -/
def List.iter_mut (self : List T) : ListIterMut T :=
  { nextRef := self.head }

/-- `impl Iterator for ListIterMut`:
`self.next.take().map(|node| { self.next = node.next.as_mut().map(...);
&mut node.elem })` — the order in which elements are visited. -/
def ListIterMut.next (self : ListIterMut T) : Option T × ListIterMut T :=
  match self.nextRef with
  | none => (none, { nextRef := none })
  | some node => (some node.elem, { nextRef := node.next })

/-- A complete mutable traversal in which every reference yielded by
`ListIterMut::next` is written through as `*e = f(*e)`: following the
step structure of `next`, the current node's `elem` is overwritten in
place and the traversal moves on to `node.next`. -/
def Link.mapMut (f : T → T) : Link T → Link T
  | none => none
  | some (.mk e next) => some (.mk (f e) (Link.mapMut f next))

/-- The stack after a full mutable traversal writing `f` through every
yielded reference (the writes land in place, through `&'a mut List`). -/
def List.iter_mut_write (self : List T) (f : T → T) : List T :=
  { head := Link.mapMut f self.head }

/-- The state-passing rendering of `peek`'s `&self` receiver: a shared
borrow returns its result alongside the (necessarily unchanged) stack. -/
def List.peekOp (self : List T) : Option T × List T :=
  (self.peek, self)

/-- Push each value of `vs` in order (`for v in vs { l.push(v) }`). -/
def List.pushAll (self : List T) (vs : ElemSeq T) : List T :=
  vs.foldl List.push self

/-- The results of `n` successive `pop` calls. -/
def List.popSeq (self : List T) : Nat → ElemSeq (Option T)
  | 0 => []
  | n + 1 =>
    let r := self.pop
    r.1 :: r.2.popSeq n

/-- `n` successive `next` calls on a consuming iterator: the values
yielded, and the iterator state left behind. -/
def ListIntoIter.consume (self : ListIntoIter T) :
    Nat → ElemSeq (Option T) × ListIntoIter T
  | 0 => ([], self)
  | n + 1 =>
    let r := self.next
    let rest := r.2.consume n
    (r.1 :: rest.1, rest.2)

/-- The values yielded by `n` successive `next` calls on a shared
iterator. -/
def ListIter.collect (self : ListIter T) : Nat → ElemSeq (Option T)
  | 0 => []
  | n + 1 =>
    let r := self.next
    r.1 :: r.2.collect n

/-- The values visited by `n` successive `next` calls on a mutable
iterator. -/
def ListIterMut.collect (self : ListIterMut T) : Nat → ElemSeq (Option T)
  | 0 => []
  | n + 1 =>
    let r := self.next
    r.1 :: r.2.collect n

/-- Pushing prepends the pushed value to the element sequence. -/
theorem List.elems_push (l : List T) (v : T) : (l.push v).elems = v :: l.elems := by
  simp [List.elems, List.push, Link.elems]

/-- Pushing a whole sequence prepends it, reversed, to the elements. -/
theorem List.pushAll_elems : ∀ (vs : ElemSeq T) (l : List T),
    (l.pushAll vs).elems = vs.reverse ++ l.elems
  | [], _ => by simp [List.pushAll]
  | v :: vs, l => by
    show ((l.push v).pushAll vs).elems = (v :: vs).reverse ++ l.elems
    rw [List.pushAll_elems vs (l.push v), List.elems_push]
    simp

/-- Popping once per element returns every element, head first. -/
theorem List.popSeq_elems : ∀ l : List T, l.popSeq l.elems.length = l.elems.map some
  | ⟨none⟩ => by simp [List.elems, Link.elems, List.popSeq]
  | ⟨some (.mk e next)⟩ => by
    have ih := List.popSeq_elems ⟨next⟩
    simp only [List.elems, Link.elems, List.length_cons, List.popSeq, List.pop,
      Node.elem, Node.next, List.map_cons] at ih ⊢
    rw [ih]

/-- The `Drop` loop counts one iteration per element of the chain. -/
theorem dropIters_eq_length : ∀ k : Link T, dropIters k = (Link.elems k).length
  | none => by simp [dropIters, Link.elems]
  | some (.mk e next) => by
    have ih := dropIters_eq_length next
    simp only [dropIters, Link.elems, List.length_cons] at ih ⊢
    rw [ih]

/-- After exactly `dropIters` iterations the `Drop` loop state is `None`
and the loop exits. -/
theorem dropStep_iterate : ∀ k : Link T, dropStep^[dropIters k] k = none
  | none => by simp [dropIters]
  | some (.mk e next) => by
    have ih := dropStep_iterate next
    simp only [dropIters] at ih ⊢
    rw [Function.iterate_succ_apply]
    simpa [dropStep, Node.next] using ih

/-- A full consuming-iterator run yields every element head first and
leaves an iterator around the empty stack. -/
theorem ListIntoIter.consume_elems :
    ∀ l : List T, (l.into_iter).consume l.elems.length
      = (l.elems.map some, List.new.into_iter)
  | ⟨none⟩ => by
    simp [List.elems, Link.elems, ListIntoIter.consume, List.into_iter, List.new]
  | ⟨some (.mk e next)⟩ => by
    have ih := ListIntoIter.consume_elems (⟨next⟩ : List T)
    simp only [List.elems, Link.elems, List.length_cons, ListIntoIter.consume,
      ListIntoIter.next, List.into_iter, List.pop, Node.elem, Node.next,
      List.map_cons] at ih ⊢
    rw [ih]

/-- Each consuming-iterator step is exactly a `pop` of the wrapped stack,
so any number of `next` calls yields the same value sequence as the same
number of `pop` calls. -/
theorem ListIntoIter.consume_eq_popSeq :
    ∀ (n : Nat) (l : List T), ((l.into_iter).consume n).1 = l.popSeq n
  | 0, _ => rfl
  | n + 1, l => by
    have ih := ListIntoIter.consume_eq_popSeq n l.pop.2
    simp only [ListIntoIter.consume, ListIntoIter.next, List.into_iter,
      List.popSeq] at ih ⊢
    rw [ih]

/-- A full shared-iterator run over a chain yields its elements head
first. -/
theorem ListIter.shared_collect_elems :
    ∀ k : Link T, (ListIter.mk k).collect (Link.elems k).length = (Link.elems k).map some
  | none => by simp [Link.elems, ListIter.collect]
  | some (.mk e next) => by
    have ih := ListIter.shared_collect_elems next
    simp only [Link.elems, List.length_cons, ListIter.collect, ListIter.next,
      Node.elem, Node.next, List.map_cons] at ih ⊢
    rw [ih]

/-- A full mutable-iterator run over a chain visits its elements head
first, each exactly once. -/
theorem ListIterMut.mut_collect_elems :
    ∀ k : Link T, (ListIterMut.mk k).collect (Link.elems k).length = (Link.elems k).map some
  | none => by simp [Link.elems, ListIterMut.collect]
  | some (.mk e next) => by
    have ih := ListIterMut.mut_collect_elems next
    simp only [Link.elems, List.length_cons, ListIterMut.collect, ListIterMut.next,
      Node.elem, Node.next, List.map_cons] at ih ⊢
    rw [ih]

/-- Writing `f` through every yielded mutable reference maps `f` over the
element sequence in place. -/
theorem Link.mapMut_elems (f : T → T) :
    ∀ k : Link T, Link.elems (Link.mapMut f k) = (Link.elems k).map f
  | none => by simp [Link.mapMut, Link.elems]
  | some (.mk e next) => by
    have ih := Link.mapMut_elems f next
    simp only [Link.mapMut, Link.elems, List.map_cons] at ih ⊢
    rw [ih]

end first

/-- C1: for every element type and every sequence of values, pushing them
in order onto a fresh stack and then popping once per value returns the
values in reverse push order (LIFO). -/
theorem claim_lifo_push_pop (vs : ElemSeq T) :
    ((first.List.new : first.List T).pushAll vs).popSeq vs.length
      = vs.reverse.map some := by
  have he : ((first.List.new : first.List T).pushAll vs).elems = vs.reverse := by
    rw [first.List.pushAll_elems]
    simp [first.List.new, first.List.elems, first.Link.elems]
  have h := first.List.popSeq_elems ((first.List.new : first.List T).pushAll vs)
  rw [he] at h
  simpa using h

/-- C2: on the empty stack, `pop`, `peek` and `peek_mut` each return
`none` ("no value"), and the stack stays empty; in the embedding every
operation is a total function, so underflow is never an error or a fault,
only this `none` result. -/
theorem claim_empty_underflow_none :
    (first.List.new : first.List T).pop = (none, first.List.new) ∧
    (first.List.new : first.List T).peek = none ∧
    (first.List.new : first.List T).peek_mut = none :=
  ⟨rfl, rfl, rfl⟩

/-- C3: the `Drop` loop, whose single step detaches the current node's
successor slot before the node is released, runs exactly one iteration
per node of the chain and reaches the exit state `none` after that many
iterations of the fixed-size loop state — iteration, not recursion, for a
chain of any length. -/
theorem claim_drop_iterative (l : first.List T) :
    first.dropIters l.head = l.elems.length ∧
    first.dropStep^[l.elems.length] l.head = none := by
  refine ⟨first.dropIters_eq_length l.head, ?_⟩
  have h := first.dropStep_iterate l.head
  rwa [first.dropIters_eq_length l.head] at h

/-- C4: consuming iteration yields exactly the stack's elements, owned,
most-recently-pushed first; after full consumption the wrapped stack is
the empty stack and a further `next` yields `none`; pushing 1, 2, 3 and
consuming yields 3, 2, 1. -/
theorem claim_into_iter_consuming (l : first.List T) :
    ((l.into_iter).consume l.elems.length).1 = l.elems.map some ∧
    ((l.into_iter).consume l.elems.length).2.inner = first.List.new ∧
    (((l.into_iter).consume l.elems.length).2).next.1 = none ∧
    (((first.List.new : first.List Nat).pushAll [1, 2, 3]).into_iter).consume 3
      = ([some 3, some 2, some 1], first.List.new.into_iter) := by
  have h := first.ListIntoIter.consume_elems l
  exact ⟨by rw [h], by rw [h]; rfl, by rw [h]; rfl, rfl⟩

/-- C5: read-only iteration walks the stack head to tail, yielding every
element in push-reverse order, and the stack itself is never touched
(the iterator holds only a shared reference into it): over 1, 2, 3 it
yields 3, 2, 1, and popping afterwards still returns 3, 2, 1, then
`none`. -/
theorem claim_iter_shared_frame (l : first.List T) :
    (l.iter).collect l.elems.length = l.elems.map some ∧
    (((first.List.new : first.List Nat).pushAll [1, 2, 3]).iter).collect 3
      = [some 3, some 2, some 1] ∧
    ((first.List.new : first.List Nat).pushAll [1, 2, 3]).popSeq 4
      = [some 3, some 2, some 1, none] :=
  ⟨first.ListIter.shared_collect_elems l.head, rfl, rfl⟩

/-- C6: mutable iteration visits the elements head to tail exactly once
each, and writing through every yielded reference maps the written
function over the stack in place: pushing 1, 2, 3 and overwriting each
visited element with ten times its value leaves pops 30, 20, 10, then
`none`. -/
theorem claim_iter_mut_writes (l : first.List T) (f : T → T) :
    (l.iter_mut).collect l.elems.length = l.elems.map some ∧
    (l.iter_mut_write f).elems = l.elems.map f ∧
    (((first.List.new : first.List Nat).pushAll [1, 2, 3]).iter_mut_write
        (fun x => x * 10)).popSeq 4 = [some 30, some 20, some 10, none] := by
  refine ⟨first.ListIterMut.mut_collect_elems l.head, first.Link.mapMut_elems f l.head, ?_⟩
  simp [first.List.iter_mut_write, first.Link.mapMut, first.List.popSeq,
    first.List.pop, first.Node.elem, first.Node.next, first.List.pushAll,
    first.List.push, first.List.new]

/-- C7: `peek` leaves the stack untouched and merely reads the head
element; a write through the reference returned by `peek_mut` (the head
exists on any pushed-onto stack) is seen by a following `peek` and by a
following `pop`. -/
theorem claim_peek_frame_peek_mut_visible (l : first.List T) (e v : T) :
    l.peekOp.2 = l ∧
    l.peekOp.1 = l.elems.head? ∧
    ((l.push e).peek_mut_write v).peek = some v ∧
    ((l.push e).peek_mut_write v).pop = (some v, l) := by
  refine ⟨rfl, ?_, rfl, rfl⟩
  cases l with
  | mk head =>
    cases head with
    | none => simp [first.List.peekOp, first.List.peek, first.List.elems,
        first.Link.elems]
    | some node =>
      cases node with
      | mk a next => simp [first.List.peekOp, first.List.peek, first.Node.elem,
          first.List.elems, first.Link.elems]

/-- C8: `push` is total (always succeeds), makes the pushed value the new
head — `peek` returns it, the new head node holds it with the old head as
its successor — and leaves the previous contents following it
unchanged. -/
theorem claim_push_always_succeeds (l : first.List T) (v : T) :
    (l.push v).peek = some v ∧
    (l.push v).head = some (first.Node.mk v l.head) ∧
    (l.push v).elems = v :: l.elems :=
  ⟨rfl, rfl, first.List.elems_push l v⟩

/-- C9: each `next` of the consuming iterator is extensionally `pop` of
the wrapped stack, so for every stack the value sequence of any number of
`next` calls equals the value sequence of that many `pop` calls. -/
theorem claim_into_iter_next_eq_pop (l : first.List T) (n : Nat) :
    (l.into_iter).next = ((l.pop).1, (l.pop).2.into_iter) ∧
    ((l.into_iter).consume n).1 = l.popSeq n :=
  ⟨rfl, first.ListIntoIter.consume_eq_popSeq n l⟩

/-- C10: pushing any value and then popping returns exactly that value
and restores the original stack. -/
theorem claim_push_pop_roundtrip (l : first.List T) (v : T) :
    (l.push v).pop = (some v, l) :=
  rfl
